import Mathlib

/-
Verification of the autotuning configuration-space subsystem described by
the Riptide tutorial notebook (src/notebooks/tune_simple_template.ipynb)
and its accompanying design specification.  The notebook only calls into
the autotuning subsystem; the subsystem itself is not shipped under src/,
so the definitions below are modelled from the specification's wording
and the notebook's prose, and the concrete numbers of the notebook
(5x5 = 25, split of 32 into 6 pairs, 10x10 = 100 for 512) are checked
against these models.
-/

namespace Riptide

/-- Modelled from the spec: a knob value is either an explicitly enumerated
value (`define_knob` passes a list of plain values) or a structured split
value, an outer-to-inner tuple of positive integer parts
(`define_split`). -/
inductive KnobValue where
  | enum (v : Int)
  | split (sizes : List Nat)
deriving DecidableEq, Repr

/-- Modelled from the spec: ascending list of the positive divisors of
`n`, used to enumerate the ways a split factor can divide an extent. -/
def divisorsAsc (n : Nat) : List Nat :=
  ((List.range n).map (· + 1)).filter (fun d => n % d == 0)

/-- Modelled from the spec: the domain of a `define_split(name, extent,
num_outputs)` knob is every way to factor `extent` into `num_outputs`
positive integer parts, listed outer-to-inner.  The innermost factor is
enumerated in ascending order, matching the notebook's enumeration
(32,1), (16,2), (8,4), (4,8), (2,16), (1,32) for extent 32. -/
def splitDomain (extent : Nat) : Nat → List (List Nat)
  | 0 => if extent == 1 then [[]] else []
  | n + 1 =>
    (divisorsAsc extent).flatMap (fun f =>
      (splitDomain (extent / f) n).map (fun rest => rest ++ [f]))

/-- Modelled from the spec: a ConfigSpace is an ordered mapping from knob
name to knob domain (a finite list of candidate values). -/
structure ConfigSpace where
  knobs : List (String × List KnobValue)
deriving DecidableEq, Repr

/-- Modelled from the spec: the total combinatorial size of a ConfigSpace
is tracked as the product of its knob-domain sizes, computable without
materializing the full value list. -/
def ConfigSpace.size (s : ConfigSpace) : Nat :=
  (s.knobs.map (fun k => k.2.length)).prod

/-- Modelled from the spec: the fully materialized list of all knob-value
combinations of a ConfigSpace (used only to state that `size` agrees with
the true number of points; the size computation itself never builds it). -/
def ConfigSpace.entities (s : ConfigSpace) : List (List KnobValue) :=
  s.knobs.foldr (fun k acc => k.2.flatMap (fun v => acc.map (fun e => v :: e))) [[]]

/-- Modelled from the spec: `define_knob(name, values)` appends an explicit
enumerated knob to the space. -/
def ConfigSpace.define_knob (s : ConfigSpace) (name : String) (values : List Int) :
    ConfigSpace :=
  ⟨s.knobs ++ [(name, values.map KnobValue.enum)]⟩

/-- Modelled from the spec: `define_split(name, extent, num_outputs)`
appends a derived knob whose domain is every ordered factorization of
`extent` into `num_outputs` positive parts. -/
def ConfigSpace.define_split (s : ConfigSpace) (name : String) (extent numOutputs : Nat) :
    ConfigSpace :=
  ⟨s.knobs ++ [(name, (splitDomain extent numOutputs).map KnobValue.split)]⟩

/-- Modelled from the spec: one knob definition collected in discovery
mode, either an explicit enumeration or a derived split. -/
inductive KnobDef where
  | defKnob (name : String) (values : List Int)
  | defSplit (name : String) (extent numOutputs : Nat)
deriving DecidableEq, Repr

/-- Modelled from the spec: the domain a knob definition contributes. -/
def KnobDef.domain : KnobDef → List KnobValue
  | .defKnob _ values => values.map KnobValue.enum
  | .defSplit _ extent numOutputs => (splitDomain extent numOutputs).map KnobValue.split

/-- Modelled from the spec: apply one knob definition to a space. -/
def ConfigSpace.applyDef (s : ConfigSpace) : KnobDef → ConfigSpace
  | .defKnob name values => s.define_knob name values
  | .defSplit name extent numOutputs => s.define_split name extent numOutputs

/-- Modelled from the spec: the ConfigSpace built in discovery mode by
collecting a sequence of knob definitions, starting from the empty space. -/
def buildSpace (defs : List KnobDef) : ConfigSpace :=
  defs.foldl ConfigSpace.applyDef ⟨[]⟩

end Riptide
namespace Riptide

lemma mem_divisorsAsc {n f : Nat} : f ∈ divisorsAsc n ↔ 0 < n ∧ 0 < f ∧ f ∣ n := by
  unfold divisorsAsc
  simp only [List.mem_filter, List.mem_map, List.mem_range, beq_iff_eq]
  constructor
  · rintro ⟨⟨a, ha, rfl⟩, hmod⟩
    exact ⟨Nat.pos_of_ne_zero (by rintro rfl; omega), Nat.succ_pos a,
      Nat.dvd_of_mod_eq_zero hmod⟩
  · rintro ⟨hn, hf, hdvd⟩
    have hle := Nat.le_of_dvd hn hdvd
    obtain ⟨c, rfl⟩ := hdvd
    exact ⟨⟨f - 1, by omega, by omega⟩, Nat.mul_mod_right f c⟩

lemma mem_splitDomain (numOutputs : Nat) : ∀ (extent : Nat) (l : List Nat),
    l ∈ splitDomain extent numOutputs ↔
      l.length = numOutputs ∧ (∀ x ∈ l, 0 < x) ∧ l.prod = extent := by
  induction numOutputs with
  | zero =>
    intro extent l
    by_cases h : extent = 1
    · subst h
      show l ∈ ([[]] : List (List Nat)) ↔ _
      simp only [List.mem_singleton]
      constructor
      · rintro rfl; simp
      · rintro ⟨hlen, -, -⟩
        exact List.eq_nil_of_length_eq_zero hlen
    · rw [splitDomain, if_neg (by simpa using h)]
      simp only [List.not_mem_nil, false_iff]
      rintro ⟨hlen, -, hprod⟩
      exact h (by rw [← hprod, List.eq_nil_of_length_eq_zero hlen, List.prod_nil])
  | succ n ih =>
    intro extent l
    simp only [splitDomain, List.mem_flatMap, List.mem_map]
    constructor
    · rintro ⟨f, hf, rest, hrest, rfl⟩
      obtain ⟨hn, hfpos, hdvd⟩ := mem_divisorsAsc.1 hf
      obtain ⟨hlen, hpos, hprod⟩ := (ih _ _).1 hrest
      refine ⟨by simp [hlen], ?_, ?_⟩
      · intro x hx
        rcases List.mem_append.1 hx with h | h
        · exact hpos x h
        · rw [List.mem_singleton.1 h]; exact hfpos
      · rw [List.prod_append, List.prod_singleton, hprod,
          Nat.div_mul_cancel hdvd]
    · rintro ⟨hlen, hpos, hprod⟩
      have hne : l ≠ [] := by
        intro h; subst h; simp at hlen
      rcases l.eq_nil_or_concat' with h | ⟨rest, f, rfl⟩
      · exact absurd h hne
      have hfpos : 0 < f := hpos f (by simp)
      have hrpos : ∀ x ∈ rest, 0 < x := fun x hx => hpos x (by simp [hx])
      rw [List.prod_append, List.prod_singleton] at hprod
      have hext : 0 < extent := by
        rw [← hprod]
        exact Nat.mul_pos (List.prod_pos hrpos) hfpos
      refine ⟨f, mem_divisorsAsc.2 ⟨hext, hfpos, by rw [← hprod]; exact dvd_mul_left f rest.prod⟩,
        rest, (ih _ _).2 ⟨by simpa using hlen, hrpos, ?_⟩, rfl⟩
      rw [← hprod, Nat.mul_div_cancel _ hfpos]

end Riptide
namespace Riptide

def KnobDef.name : KnobDef → String
  | .defKnob n _ => n
  | .defSplit n _ _ => n

lemma applyDef_knobs (s : ConfigSpace) (d : KnobDef) :
    (s.applyDef d).knobs = s.knobs ++ [(d.name, d.domain)] := by
  cases d <;> rfl

lemma foldl_applyDef_knobs (defs : List KnobDef) : ∀ s : ConfigSpace,
    (defs.foldl ConfigSpace.applyDef s).knobs
      = s.knobs ++ defs.map (fun d => (d.name, d.domain)) := by
  induction defs with
  | nil => intro s; simp
  | cons d ds ih =>
    intro s
    simp [List.foldl_cons, ih, applyDef_knobs]

lemma entitiesAux_length (ks : List (String × List KnobValue)) :
    (ks.foldr (fun k acc => k.2.flatMap (fun v => acc.map (v :: ·))) [[]]).length
      = (ks.map (fun k => k.2.length)).prod := by
  induction ks with
  | nil => simp
  | cons k ks ih =>
    simp only [List.foldr_cons, List.length_flatMap, List.map_map, Function.comp_def,
      List.length_map, List.map_const', List.sum_replicate, smul_eq_mul, ih, List.map_cons,
      List.prod_cons]

lemma entities_length (s : ConfigSpace) : s.entities.length = s.size :=
  entitiesAux_length s.knobs

end Riptide
namespace Riptide

set_option maxRecDepth 100000 in
/-- C1: for every ConfigSpace built in discovery mode from any sequence of
knob definitions, the total size of the space equals the product of the
domain cardinalities of its knobs, which is also the exact number of
points of the fully materialized space; concretely, two define_knob knobs
with 5 values each give size 25, and two define_split knobs over extent
512 with num_outputs 2 give size 100. -/
theorem configSpace_size_is_product_of_domains :
    (∀ defs : List KnobDef,
        (buildSpace defs).size
            = (defs.map (fun d => d.domain.length)).prod
          ∧ (buildSpace defs).entities.length = (buildSpace defs).size)
    ∧ (buildSpace [.defKnob "tile_y" [1, 2, 4, 8, 16],
        .defKnob "tile_x" [1, 2, 4, 8, 16]]).size = 25
    ∧ (buildSpace [.defSplit "tile_y" 512 2, .defSplit "tile_x" 512 2]).size = 100 := by
  refine ⟨fun defs => ⟨?_, entities_length _⟩, by decide, by decide⟩
  show ((defs.foldl ConfigSpace.applyDef ⟨[]⟩).knobs.map (fun k => k.2.length)).prod = _
  rw [foldl_applyDef_knobs]
  simp [List.map_map, Function.comp_def]

set_option maxRecDepth 100000 in
/-- C3: define_split appends a knob whose domain is exactly the set of
ordered outer-to-inner tuples of num_outputs positive integers whose
product is the extent; for extent 32 and two outputs the domain is
exactly the six listed pairs, and for extent 512 and two outputs it has
exactly 10 elements. -/
theorem define_split_domain_exact :
    (∀ (s : ConfigSpace) (name : String) (extent numOutputs : Nat),
        (s.define_split name extent numOutputs).knobs
          = s.knobs ++ [(name, (splitDomain extent numOutputs).map KnobValue.split)])
    ∧ (∀ (extent numOutputs : Nat) (l : List Nat),
        l ∈ splitDomain extent numOutputs ↔
          l.length = numOutputs ∧ (∀ x ∈ l, 0 < x) ∧ l.prod = extent)
    ∧ splitDomain 32 2 = [[32, 1], [16, 2], [8, 4], [4, 8], [2, 16], [1, 32]]
    ∧ (splitDomain 512 2).length = 10 :=
  ⟨fun _ _ _ _ => rfl, fun extent numOutputs l => mem_splitDomain numOutputs extent l,
    by decide, by decide⟩

end Riptide
namespace Riptide

/-- Modelled from the spec: a ConfigEntity fixes a chosen value for every
knob name; it is immutable once constructed. -/
structure ConfigEntity where
  vals : List (String × KnobValue)
deriving DecidableEq, Repr

/-- Modelled from the spec: the value the entity fixes for a knob name. -/
def ConfigEntity.get (e : ConfigEntity) (k : String) : Option KnobValue :=
  (e.vals.find? (fun kv => kv.1 == k)).map Prod.snd

/-- Modelled from the spec: the mode of the template-evaluator context:
Discover collects knob definitions into a mutable space; Apply is bound
read-only to a chosen entity. -/
inductive Mode where
  | discover
  | apply (e : ConfigEntity)
deriving DecidableEq, Repr

/-- Modelled from the spec: the config context passed into the template:
its mode plus the space collected so far (mutable only in discovery). -/
structure Cfg where
  mode : Mode
  space : ConfigSpace
deriving DecidableEq, Repr

/-- Modelled from the spec: a define_* call on the context appends the
knob in discovery mode and is a no-op in apply mode. -/
def Cfg.defineOp (c : Cfg) (d : KnobDef) : Cfg :=
  match c.mode with
  | .discover => { c with space := c.space.applyDef d }
  | .apply _ => c

/-- Modelled from the spec: a knob lookup cfg[k] returns the single value
fixed by the bound entity in apply mode; in discovery mode (where the
spec fixes no lookup result) it falls back to the head of the knob's
collected domain. -/
def Cfg.lookup (c : Cfg) (k : String) : Option KnobValue :=
  match c.mode with
  | .apply e => e.get k
  | .discover =>
    (c.space.knobs.find? (fun kv => kv.1 == k)).bind (fun kv => kv.2.head?)

/-- Modelled from the spec: the trace of config-context interactions one
template body performs: define_* calls interleaved with value lookups
(the schedule statements themselves do not touch the context). -/
inductive TemplOp where
  | define (d : KnobDef)
  | lookup (k : String)
deriving DecidableEq, Repr

/-- Modelled from the spec: evaluating a template body against a context,
threading the context through every define_* call and recording the value
every lookup returns; the same single body is run in either mode. -/
def runTemplate (c : Cfg) : List TemplOp → Cfg × List (Option KnobValue)
  | [] => (c, [])
  | .define d :: rest => runTemplate (c.defineOp d) rest
  | .lookup k :: rest =>
    let r := runTemplate c rest
    (r.1, c.lookup k :: r.2)

/-- Modelled from the spec: the knob definitions a template body makes. -/
def defsOf (ops : List TemplOp) : List KnobDef :=
  ops.filterMap (fun op => match op with | .define d => some d | _ => none)

/-- Modelled from the spec: the knob names a template body looks up. -/
def lookupsOf (ops : List TemplOp) : List String :=
  ops.filterMap (fun op => match op with | .lookup k => some k | _ => none)

lemma runTemplate_discover (ops : List TemplOp) : ∀ s : ConfigSpace,
    (runTemplate ⟨.discover, s⟩ ops).1
      = ⟨.discover, (defsOf ops).foldl ConfigSpace.applyDef s⟩ := by
  induction ops with
  | nil => intro s; rfl
  | cons op rest ih =>
    intro s
    cases op with
    | define d => simpa [runTemplate, defsOf, Cfg.defineOp] using ih (s.applyDef d)
    | lookup k => simpa [runTemplate, defsOf] using ih s

lemma runTemplate_apply (ops : List TemplOp) : ∀ (e : ConfigEntity) (s : ConfigSpace),
    runTemplate ⟨.apply e, s⟩ ops
      = (⟨.apply e, s⟩, (lookupsOf ops).map e.get) := by
  induction ops with
  | nil => intro e s; rfl
  | cons op rest ih =>
    intro e s
    cases op with
    | define d => simpa [runTemplate, lookupsOf, Cfg.defineOp] using ih e s
    | lookup k => simp [runTemplate, lookupsOf, Cfg.lookup, ih e s]

/-- C2: the same template body behaves dually by mode: run in Discover
mode it folds every define_* call into the mutable space, collecting
exactly the space built from its knob definitions; run in Apply mode
bound to an entity, the context comes back unchanged (every define_* call
is a no-op) and every lookup returns the single value the entity fixes
for that knob name — one function body, no mode branch in the template. -/
theorem template_dual_mode_evaluation :
    ∀ (ops : List TemplOp) (e : ConfigEntity) (s : ConfigSpace),
      (runTemplate ⟨.discover, ⟨[]⟩⟩ ops).1.space = buildSpace (defsOf ops)
      ∧ (runTemplate ⟨.apply e, s⟩ ops).1 = ⟨.apply e, s⟩
      ∧ (runTemplate ⟨.apply e, s⟩ ops).2 = (lookupsOf ops).map e.get := by
  intro ops e s
  refine ⟨?_, ?_, ?_⟩
  · rw [runTemplate_discover]; rfl
  · rw [runTemplate_apply]
  · rw [runTemplate_apply]

end Riptide
namespace Riptide

/-- Modelled from the spec: ordinal-to-entity decoding decomposes the
index in mixed radix over the knob-domain sizes, first knob varying
fastest; each digit selects one value of the corresponding domain. -/
def decodeIdx : List Nat → Nat → List Nat
  | [], _ => []
  | r :: rs, i => i % r :: decodeIdx rs (i / r)

/-- Modelled from the spec: the inverse recomposition of a per-knob digit
vector into the entity's integer index. -/
def encodeIdx : List Nat → List Nat → Nat
  | _, [] => 0
  | [], _ :: _ => 0
  | r :: rs, d :: ds => d + r * encodeIdx rs ds

/-- Modelled from the spec: the per-knob domain sizes of a ConfigSpace,
in knob order. -/
def ConfigSpace.radices (s : ConfigSpace) : List Nat :=
  s.knobs.map (fun k => k.2.length)

/-- Modelled from the spec: the point of the space an index decodes to:
one chosen-value index per knob. -/
def ConfigSpace.pointOf (s : ConfigSpace) (i : Nat) : List Nat :=
  decodeIdx s.radices i

/-- Modelled from the spec: the integer index of a per-knob digit
vector. -/
def ConfigSpace.indexOf (s : ConfigSpace) (digits : List Nat) : Nat :=
  encodeIdx s.radices digits

lemma encodeIdx_decodeIdx (rs : List Nat) : ∀ i : Nat, i < rs.prod →
    encodeIdx rs (decodeIdx rs i) = i := by
  induction rs with
  | nil =>
    intro i hi
    simp only [List.prod_nil, Nat.lt_one_iff] at hi
    simp [hi, decodeIdx, encodeIdx]
  | cons r rs ih =>
    intro i hi
    rw [List.prod_cons] at hi
    have hr : 0 < r := by
      rcases Nat.eq_zero_or_pos r with h | h
      · subst h; simp at hi
      · exact h
    have hdiv : i / r < rs.prod := Nat.div_lt_of_lt_mul hi
    rw [decodeIdx, encodeIdx, ih _ hdiv, Nat.add_comm, Nat.div_add_mod]

lemma decodeIdx_lt (rs : List Nat) : ∀ i : Nat, i < rs.prod →
    (decodeIdx rs i).length = rs.length
    ∧ ∀ p ∈ (decodeIdx rs i).zip rs, p.1 < p.2 := by
  induction rs with
  | nil => intro i hi; simp [decodeIdx]
  | cons r rs ih =>
    intro i hi
    rw [List.prod_cons] at hi
    have hr : 0 < r := by
      rcases Nat.eq_zero_or_pos r with h | h
      · subst h; simp at hi
      · exact h
    have hdiv : i / r < rs.prod := Nat.div_lt_of_lt_mul hi
    obtain ⟨hlen, hbound⟩ := ih _ hdiv
    refine ⟨by simp [decodeIdx, hlen], ?_⟩
    intro p hp
    rw [decodeIdx, List.zip_cons_cons] at hp
    rcases List.mem_cons.1 hp with h | h
    · subst h; exact Nat.mod_lt _ hr
    · exact hbound p h

/-- C4: for every index i in [0, space_size) the ordinal decoding is a
faithful inverse pair: decoding i gives one in-range chosen-value index
per knob, and encoding that point back yields i again, so decoding is a
bijection from indices onto the points of the space. -/
theorem configSpace_index_round_trip (s : ConfigSpace) (i : Nat) (hi : i < s.size) :
    s.indexOf (s.pointOf i) = i
    ∧ (s.pointOf i).length = s.knobs.length
    ∧ ∀ p ∈ (s.pointOf i).zip s.radices, p.1 < p.2 := by
  have hsize : i < s.radices.prod := by
    simpa [ConfigSpace.radices, ConfigSpace.size] using hi
  obtain ⟨hlen, hbound⟩ := decodeIdx_lt s.radices i hsize
  exact ⟨encodeIdx_decodeIdx s.radices i hsize,
    by simpa [ConfigSpace.radices] using hlen, hbound⟩

/-- Witness for C4 at a concrete space and index: the 5x5 notebook space,
index 13 decodes and re-encodes to 13. -/
theorem configSpace_index_round_trip_witness :
    (buildSpace [.defKnob "tile_y" [1, 2, 4, 8, 16],
        .defKnob "tile_x" [1, 2, 4, 8, 16]]).indexOf
      ((buildSpace [.defKnob "tile_y" [1, 2, 4, 8, 16],
        .defKnob "tile_x" [1, 2, 4, 8, 16]]).pointOf 13) = 13 :=
  (configSpace_index_round_trip _ 13 (by decide)).1

end Riptide
namespace Riptide

/-- Modelled from the spec: the GridSearchTuner's whole state is the next
index to visit; it enumerates the space in the fixed deterministic
row-major order 0, 1, 2, ... over the knob domains. -/
structure GridState where
  counter : Nat
deriving DecidableEq, Repr

/-- Modelled from the spec: one grid-search proposal: the current counter
while it is still inside the space, advancing the counter. -/
def gridPropose (size : Nat) (st : GridState) : Option (Nat × GridState) :=
  if st.counter < size then some (st.counter, ⟨st.counter + 1⟩) else none

/-- Modelled from the spec: the tuning loop driving the grid tuner for a
trial budget, collecting every proposed index (measurement feedback does
not alter the grid order). -/
def gridRun (size : Nat) : Nat → GridState → List Nat
  | 0, _ => []
  | n + 1, st =>
    match gridPropose size st with
    | none => []
    | some (i, st2) => i :: gridRun size n st2

lemma gridRun_eq_range' (size : Nat) : ∀ (n c : Nat),
    gridRun size n ⟨c⟩ = List.range' c (min n (size - c)) := by
  intro n
  induction n with
  | zero => intro c; simp [gridRun]
  | succ n ih =>
    intro c
    by_cases hc : c < size
    · have hmin : min (n + 1) (size - c) = min n (size - (c + 1)) + 1 := by omega
      rw [gridRun, gridPropose, if_pos hc]
      show c :: gridRun size n ⟨c + 1⟩ = _
      rw [ih (c + 1), hmin, List.range']
    · have hmin : min (n + 1) (size - c) = 0 := by omega
      rw [gridRun, gridPropose, if_neg hc]
      show ([] : List Nat) = _
      rw [hmin, List.range']

/-- C5: the grid tuner proposes indices in the fixed deterministic
row-major order 0, 1, ..., and run to completion with the trial budget
equal to the space size it proposes every index of the space exactly
once. -/
theorem gridSearch_visits_every_index_once (s : ConfigSpace) :
    gridRun s.size s.size ⟨0⟩ = List.range s.size
    ∧ ∀ i, i < s.size → (gridRun s.size s.size ⟨0⟩).count i = 1 := by
  have hrange : gridRun s.size s.size ⟨0⟩ = List.range s.size := by
    rw [gridRun_eq_range' s.size s.size 0, Nat.sub_zero, Nat.min_self,
      List.range_eq_range']
  refine ⟨hrange, fun i hi => ?_⟩
  rw [hrange]
  have hmem : i ∈ List.range s.size := List.mem_range.2 hi
  have hnd := List.nodup_range s.size
  have h1 := List.count_pos_iff.2 hmem
  have h2 := List.nodup_iff_count_le_one.1 hnd i
  omega

set_option maxRecDepth 100000 in
/-- Witness for C5 on the notebook's 10x10 space of size 100: index 42 is
proposed exactly once. -/
theorem gridSearch_visits_every_index_once_witness :
    (gridRun (buildSpace [.defSplit "tile_y" 512 2, .defSplit "tile_x" 512 2]).size
        (buildSpace [.defSplit "tile_y" 512 2, .defSplit "tile_x" 512 2]).size ⟨0⟩).count 42
      = 1 :=
  (gridSearch_visits_every_index_once _).2 42 (by decide)

end Riptide
namespace Riptide

/-- Modelled from the spec: the RandomTuner's state is the list of
remaining unexplored indices of the space; it samples from it without
replacement. -/
structure RandomState where
  remaining : List Nat
deriving DecidableEq, Repr

/-- Modelled from the spec: one random proposal: while unexplored indices
remain, an arbitrary random draw (reduced modulo the number of remaining
indices) picks one remaining index, which is removed from the state. -/
def randomPropose (draw : Nat) (st : RandomState) : Option (Nat × RandomState) :=
  match st.remaining with
  | [] => none
  | _ :: _ =>
    let pos := draw % st.remaining.length
    some (st.remaining.getD pos 0, ⟨st.remaining.eraseIdx pos⟩)

/-- Modelled from the spec: the tuning loop driving the random tuner with
one draw per trial, collecting every proposed index. -/
def randomRun : List Nat → RandomState → List Nat
  | [], _ => []
  | d :: ds, st =>
    match randomPropose d st with
    | none => []
    | some (i, st2) => i :: randomRun ds st2

lemma randomPropose_nil (draw : Nat) (st : RandomState) (h : st.remaining = []) :
    randomPropose draw st = none := by
  unfold randomPropose
  rw [h]

lemma randomPropose_ne_nil (draw : Nat) (st : RandomState) (h : st.remaining ≠ []) :
    randomPropose draw st
      = some (st.remaining.getD (draw % st.remaining.length) 0,
          ⟨st.remaining.eraseIdx (draw % st.remaining.length)⟩) := by
  obtain ⟨x, xs, hrem⟩ := List.exists_cons_of_ne_nil h
  unfold randomPropose
  rw [hrem]

lemma randomRun_cons_ne_nil (d : Nat) (ds : List Nat) (st : RandomState)
    (h : st.remaining ≠ []) :
    randomRun (d :: ds) st
      = st.remaining.getD (d % st.remaining.length) 0
          :: randomRun ds ⟨st.remaining.eraseIdx (d % st.remaining.length)⟩ := by
  rw [randomRun, randomPropose_ne_nil d st h]

lemma randomRun_nodup_subset (draws : List Nat) : ∀ st : RandomState,
    st.remaining.Nodup →
      (randomRun draws st).Nodup ∧ ∀ i ∈ randomRun draws st, i ∈ st.remaining := by
  induction draws with
  | nil => intro st h; simp [randomRun]
  | cons d ds ih =>
    intro st hnd
    by_cases hrem : st.remaining = []
    · rw [randomRun, randomPropose_nil d st hrem]
      simp
    · have hlen : 0 < st.remaining.length := List.length_pos.2 hrem
      set pos := d % st.remaining.length with hpos
      have hposlt : pos < st.remaining.length := Nat.mod_lt _ hlen
      have hget : st.remaining.getD pos 0 = st.remaining[pos] :=
        List.getD_eq_getElem st.remaining 0 hposlt
      have herase : st.remaining.eraseIdx pos = st.remaining.erase st.remaining[pos] :=
        (hnd.erase_getElem pos hposlt).symm
      have hnd2 : (st.remaining.eraseIdx pos).Nodup := by
        rw [herase]; exact hnd.erase _
      obtain ⟨htail_nd, htail_sub⟩ := ih ⟨st.remaining.eraseIdx pos⟩ hnd2
      rw [randomRun_cons_ne_nil d ds st hrem, ← hpos]
      constructor
      · rw [List.nodup_cons]
        refine ⟨fun hmem => ?_, htail_nd⟩
        have hsub := htail_sub _ hmem
        rw [herase, hget] at hsub
        exact hnd.not_mem_erase hsub
      · intro i hi
        rcases List.mem_cons.1 hi with h | h
        · rw [h, hget]; exact List.getElem_mem hposlt
        · exact List.eraseIdx_subset _ _ (htail_sub _ h)

lemma randomRun_length (draws : List Nat) : ∀ st : RandomState,
    (randomRun draws st).length = min draws.length st.remaining.length := by
  induction draws with
  | nil => intro st; simp [randomRun]
  | cons d ds ih =>
    intro st
    by_cases hrem : st.remaining = []
    · rw [randomRun, randomPropose_nil d st hrem, hrem]
      simp
    · have hlen : 0 < st.remaining.length := List.length_pos.2 hrem
      set pos := d % st.remaining.length with hpos
      have hposlt : pos < st.remaining.length := Nat.mod_lt _ hlen
      rw [randomRun_cons_ne_nil d ds st hrem, ← hpos, List.length_cons,
        ih ⟨st.remaining.eraseIdx pos⟩]
      show min ds.length (st.remaining.eraseIdx pos).length + 1 = _
      rw [List.length_eraseIdx, if_pos hposlt]
      simp only [List.length_cons]
      omega

/-- C6: the random tuner samples without replacement: for every sequence
of random draws, the proposed indices are pairwise distinct, all lie in
the space, and while unexplored indices remain every trial proposes one —
so 10 trials over a size-100 space yield 10 distinct proposals. -/
theorem randomTuner_samples_without_replacement (draws : List Nat) (s : ConfigSpace) :
    (randomRun draws ⟨List.range s.size⟩).Nodup
    ∧ (randomRun draws ⟨List.range s.size⟩).length = min draws.length s.size
    ∧ ∀ i ∈ randomRun draws ⟨List.range s.size⟩, i < s.size := by
  obtain ⟨hnd, hsub⟩ :=
    randomRun_nodup_subset draws ⟨List.range s.size⟩ (List.nodup_range s.size)
  refine ⟨hnd, ?_, fun i hi => List.mem_range.1 (hsub i hi)⟩
  rw [randomRun_length]
  simp

set_option maxRecDepth 400000 in
/-- Witness for C6: ten concrete draws over the notebook's size-100 space
propose ten distinct in-range indices. -/
theorem randomTuner_samples_without_replacement_witness :
    (randomRun [3, 1, 4, 1, 5, 9, 2, 6, 5, 3]
        ⟨List.range (buildSpace [.defSplit "tile_y" 512 2,
          .defSplit "tile_x" 512 2]).size⟩).Nodup
    ∧ (randomRun [3, 1, 4, 1, 5, 9, 2, 6, 5, 3]
        ⟨List.range (buildSpace [.defSplit "tile_y" 512 2,
          .defSplit "tile_x" 512 2]).size⟩).length = 10 :=
  ⟨(randomTuner_samples_without_replacement [3, 1, 4, 1, 5, 9, 2, 6, 5, 3] _).1,
    (randomTuner_samples_without_replacement [3, 1, 4, 1, 5, 9, 2, 6, 5, 3] _).2.1⟩

end Riptide
namespace Riptide

/-- Modelled from the spec: the per-candidate failure kinds the
measurement pipeline can hit: build failure, runtime/device failure, or
timeout. -/
inductive MeasureErrorKind where
  | buildError
  | runtimeError
  | timeoutError
deriving DecidableEq, Repr

/-- Modelled from the spec: the recorded outcome of executing one
candidate: success with a latency sample, or a failure marker with its
error kind. -/
inductive MeasureStatus where
  | success (latency : Nat)
  | failed (e : MeasureErrorKind)
deriving DecidableEq, Repr

/-- Modelled from the spec: the MeasureResult handed back to the tuner. -/
structure MeasureResult where
  status : MeasureStatus
deriving DecidableEq, Repr

/-- Modelled from the spec: whether a result carries a failure marker. -/
def MeasureResult.isFailed (r : MeasureResult) : Bool :=
  match r.status with
  | .success _ => false
  | .failed _ => true

/-- Modelled from the spec: the fitness the tuner assigns a result:
negative latency for a success, bottom (worst case) for any failure. -/
def fitness (r : MeasureResult) : WithBot Int :=
  match r.status with
  | .success l => ((-(l : Int) : Int) : WithBot Int)
  | .failed _ => ⊥

/-- Modelled from the spec: per-candidate measurement wraps the raw
build-and-run step (which may fail with any MeasureErrorKind) and
converts a failure into a failed MeasureResult instead of propagating
it; as a total function it can never raise out of the tuning loop. -/
def measureOne (raw : Nat → Except MeasureErrorKind Nat) (c : Nat) : MeasureResult :=
  match raw c with
  | .ok lat => ⟨.success lat⟩
  | .error e => ⟨.failed e⟩

/-- Modelled from the spec: the externally driven tuning loop: repeat
propose-measure-record until the budget is exhausted or the space is
done; per-candidate failures are recorded and the loop keeps going. -/
def tuneLoop {σ : Type} (propose : σ → Option (Nat × σ))
    (raw : Nat → Except MeasureErrorKind Nat) : Nat → σ → List (Nat × MeasureResult)
  | 0, _ => []
  | n + 1, st =>
    match propose st with
    | none => []
    | some (c, st2) => (c, measureOne raw c) :: tuneLoop propose raw n st2

lemma tuneLoop_fst_independent_of_raw {σ : Type} (propose : σ → Option (Nat × σ))
    (raw raw2 : Nat → Except MeasureErrorKind Nat) : ∀ (n : Nat) (st : σ),
    (tuneLoop propose raw n st).map Prod.fst
      = (tuneLoop propose raw2 n st).map Prod.fst := by
  intro n
  induction n with
  | zero => intro st; rfl
  | succ n ih =>
    intro st
    rw [tuneLoop, tuneLoop]
    match propose st with
    | none => rfl
    | some (c, st2) => simpa using ih st2

/-- C7: a per-candidate build, runtime, or timeout failure is converted
into a MeasureResult marked failed; it never aborts the session: the
candidates the loop proposes are identical whatever failures the raw
measurements produce, and the tuner ranks a failed result as worst-case
fitness, below every other result. -/
theorem measurement_failures_are_contained :
    (∀ (raw : Nat → Except MeasureErrorKind Nat) (c : Nat) (e : MeasureErrorKind),
        raw c = .error e →
          measureOne raw c = ⟨.failed e⟩ ∧ (measureOne raw c).isFailed = true)
    ∧ (∀ (σ : Type) (propose : σ → Option (Nat × σ))
        (raw raw2 : Nat → Except MeasureErrorKind Nat) (n : Nat) (st : σ),
        (tuneLoop propose raw n st).map Prod.fst
          = (tuneLoop propose raw2 n st).map Prod.fst)
    ∧ (∀ r r2 : MeasureResult, r.isFailed = true → fitness r ≤ fitness r2) := by
  refine ⟨fun raw c e h => ?_, fun σ p raw raw2 n st =>
    tuneLoop_fst_independent_of_raw p raw raw2 n st, fun r r2 h => ?_⟩
  · rw [measureOne, h]
    exact ⟨rfl, rfl⟩
  · match hst : r.status with
    | .success l => rw [MeasureResult.isFailed, hst] at h; cases h
    | .failed e =>
      rw [fitness, hst]
      exact bot_le

/-- Witness for C7: a raw step failing with a build error on candidate 0
is recorded as a failed result, and a timed-out result ranks below a
successful 7-cycle result. -/
theorem measurement_failures_are_contained_witness :
    measureOne (fun _ => .error .buildError) 0 = ⟨.failed .buildError⟩
    ∧ fitness ⟨.failed .timeoutError⟩ ≤ fitness ⟨.success 7⟩ :=
  ⟨(measurement_failures_are_contained.1 (fun _ => .error .buildError) 0 .buildError rfl).1,
    measurement_failures_are_contained.2.2 ⟨.failed .timeoutError⟩ ⟨.success 7⟩ rfl⟩

/-- Modelled from the spec: the fatal session-level error surfaced when
no target device is reachable at session start. -/
inductive TuneFatal where
  | deviceUnavailable
deriving DecidableEq, Repr

/-- Modelled from the spec: the tune entry point: it checks device
reachability before any batch is measured; with no reachable device it
fails immediately with a fatal error, otherwise it drives the tuning
loop to its trial budget. -/
def tune (deviceReachable : Bool) (size nTrial : Nat)
    (raw : Nat → Except MeasureErrorKind Nat) :
    Except TuneFatal (List (Nat × MeasureResult)) :=
  if deviceReachable then .ok (tuneLoop (gridPropose size) raw nTrial ⟨0⟩)
  else .error .deviceUnavailable

/-- C8: with no reachable target device at session start, the tune entry
point surfaces the fatal device-unavailable error immediately — it does
not return failed MeasureResults and does not continue the session —
while with a reachable device it runs the full loop. -/
theorem tune_fails_fast_when_device_unreachable :
    ∀ (size nTrial : Nat) (raw : Nat → Except MeasureErrorKind Nat),
      tune false size nTrial raw = .error .deviceUnavailable
      ∧ tune true size nTrial raw
          = .ok (tuneLoop (gridPropose size) raw nTrial ⟨0⟩) :=
  fun _ _ _ => ⟨rfl, rfl⟩

end Riptide
namespace Riptide

/-- Modelled from the spec: a SplitEntity stores the chosen outer-to-inner
axis lengths of a split knob in its size field. -/
structure SplitEntity where
  size : List Nat
deriving DecidableEq, Repr

/-- Modelled from the spec: the low-level schedule primitive
s[C].split(axis, factor): an axis of the given extent becomes an outer
axis of extent ceil(extent / factor) and an inner axis of extent
factor. -/
def schedSplit (extent factor : Nat) : Nat × Nat :=
  ((extent + factor - 1) / factor, factor)

/-- Modelled from the spec: the nparts form s[C].split(axis, nparts=p):
the outer axis gets extent p and the inner axis ceil(extent / p). -/
def schedSplitNparts (extent nparts : Nat) : Nat × Nat :=
  (nparts, (extent + nparts - 1) / nparts)

/-- Modelled from the spec: SplitEntity.apply realizes the multi-level
split: at each level it calls the low-level split with the product of
the remaining inner sizes as the factor, keeps the outer axis and
recurses on the inner one; it returns one axis extent per stored size,
outer to inner. -/
def applySizes : List Nat → Nat → List Nat
  | [], _ => []
  | [_], extent => [extent]
  | _ :: rest, extent =>
    let s := schedSplit extent rest.prod
    s.1 :: applySizes rest s.2

/-- Modelled from the spec: entry point of the high-level apply. -/
def SplitEntity.apply (e : SplitEntity) (extent : Nat) : List Nat :=
  applySizes e.size extent

lemma ceil_div_mul_left {a b : Nat} (ha : 0 < a) : (a * b + a - 1) / a = b := by
  have h : a * b + a - 1 = a * b + (a - 1) := by omega
  rw [h, Nat.mul_add_div ha]
  rw [Nat.div_eq_of_lt (by omega)]
  omega

/-- C9: for a two-output split knob whose chosen SplitEntity stores sizes
(s0, s1) multiplying to the axis extent, the high-level
cfg[name].apply(s, C, axis) yields exactly the axis pair of the low-level
s[C].split(axis, s1), which also coincides with
s[C].split(axis, nparts=s0), both being the pair (s0, s1). -/
theorem splitEntity_apply_equals_lowlevel_split
    (s0 s1 extent : Nat) (h0 : 0 < s0) (h1 : 0 < s1) (hprod : s0 * s1 = extent) :
    SplitEntity.apply ⟨[s0, s1]⟩ extent
        = [(schedSplit extent s1).1, (schedSplit extent s1).2]
    ∧ SplitEntity.apply ⟨[s0, s1]⟩ extent
        = [(schedSplitNparts extent s0).1, (schedSplitNparts extent s0).2]
    ∧ SplitEntity.apply ⟨[s0, s1]⟩ extent = [s0, s1] := by
  subst hprod
  have hceil1 : (s0 * s1 + s1 - 1) / s1 = s0 := by
    rw [Nat.mul_comm s0 s1]
    exact ceil_div_mul_left h1
  have hceil0 : (s0 * s1 + s0 - 1) / s0 = s1 := ceil_div_mul_left h0
  have happly : SplitEntity.apply ⟨[s0, s1]⟩ (s0 * s1) = [s0, s1] := by
    show ((s0 * s1 + s1 * 1 - 1) / (s1 * 1)) :: [s1 * 1] = [s0, s1]
    rw [Nat.mul_one, hceil1]
  refine ⟨?_, ?_, happly⟩
  · rw [happly]
    show _ = [(s0 * s1 + s1 - 1) / s1, s1]
    rw [hceil1]
  · rw [happly]
    show _ = [s0, (s0 * s1 + s0 - 1) / s0]
    rw [hceil0]

/-- Witness for C9: the notebook's example pair (4, 8) for extent 32: the
high-level apply equals the low-level split with factor 8. -/
theorem splitEntity_apply_equals_lowlevel_split_witness :
    SplitEntity.apply ⟨[4, 8]⟩ 32 = [(schedSplit 32 8).1, (schedSplit 32 8).2]
    ∧ SplitEntity.apply ⟨[4, 8]⟩ 32 = [4, 8] :=
  ⟨(splitEntity_apply_equals_lowlevel_split 4 8 32 (by decide) (by decide) (by decide)).1,
    (splitEntity_apply_equals_lowlevel_split 4 8 32 (by decide) (by decide) (by decide)).2.2⟩

end Riptide
namespace Riptide

/-- The reference compute rule of the notebook's matmul template,
over exact integer values: C[i, j] is the sum over k < L of
A[i, k] * B[k, j]. -/
def matmulRef (A B : Nat → Nat → Int) (L i j : Nat) : Int :=
  ∑ k ∈ Finset.range L, A i k * B k j

/-- Modelled from the spec: the value the tiled schedule of the matmul
template leaves in output cell (i, j): the loop nest obtained by
splitting y into (a1, b1), x into (a2, b2) and reordering to
(yo, xo, k, yi, xi) accumulates A[y, k] * B[k, x] into cell
(y, x) = (yo * b1 + yi, xo * b2 + xi) at every iteration; since
accumulations into distinct cells commute, the final value of cell
(i, j) is the sum, over the loop nest in its loop order, of the
contributions guarded to that cell. -/
def matmulTiled (A B : Nat → Nat → Int) (L a1 b1 a2 b2 i j : Nat) : Int :=
  ∑ yo ∈ Finset.range a1, ∑ xo ∈ Finset.range a2, ∑ k ∈ Finset.range L,
    ∑ yi ∈ Finset.range b1, ∑ xi ∈ Finset.range b2,
      if yo * b1 + yi = i ∧ xo * b2 + xi = j
      then A (yo * b1 + yi) k * B k (xo * b2 + xi)
      else 0

lemma sum_ite_push {P : Prop} [Decidable P] (s : Finset Nat) (f : Nat → Int) :
    (∑ x ∈ s, if P then f x else 0) = if P then ∑ x ∈ s, f x else 0 := by
  by_cases h : P <;> simp [h]

lemma sum_tile_indicator (a b i : Nat) (hb : 0 < b) (hi : i < a * b) (c : Int) :
    (∑ yo ∈ Finset.range a, ∑ yi ∈ Finset.range b,
        if yo * b + yi = i then c else 0) = c := by
  have hiff : ∀ yo : Nat, ∀ yi ∈ Finset.range b,
      (yo * b + yi = i ↔ yi = i % b ∧ yo = i / b) := by
    intro yo yi hyi
    rw [Finset.mem_range] at hyi
    constructor
    · rintro rfl
      rw [Nat.mul_comm, Nat.mul_add_mod, Nat.mod_eq_of_lt hyi,
        Nat.mul_add_div hb, Nat.div_eq_of_lt hyi]
      omega
    · rintro ⟨rfl, rfl⟩
      rw [Nat.mul_comm]
      exact Nat.div_add_mod i b
  calc (∑ yo ∈ Finset.range a, ∑ yi ∈ Finset.range b,
          if yo * b + yi = i then c else 0)
      = ∑ yo ∈ Finset.range a, ∑ yi ∈ Finset.range b,
          if yi = i % b ∧ yo = i / b then c else 0 :=
        Finset.sum_congr rfl fun yo _ => Finset.sum_congr rfl fun yi hyi => by
          rw [if_congr (hiff yo yi hyi) rfl rfl]
    _ = ∑ yo ∈ Finset.range a, ∑ yi ∈ Finset.range b,
          if yi = i % b then (if yo = i / b then c else 0) else 0 := by
        simp only [ite_and]
    _ = ∑ yo ∈ Finset.range a, if yo = i / b then c else 0 :=
        Finset.sum_congr rfl fun yo _ => by
          rw [Finset.sum_ite_eq' (Finset.range b) (i % b)
            (fun _ => if yo = i / b then c else 0),
            if_pos (Finset.mem_range.2 (Nat.mod_lt _ hb))]
    _ = c := by
        rw [Finset.sum_ite_eq' (Finset.range a) (i / b) (fun _ => c),
          if_pos (Finset.mem_range.2 ((Nat.div_lt_iff_lt_mul hb).2 hi))]

lemma sum_swap_pull {P : Nat → Prop} [DecidablePred P] (sk sb : Finset Nat) (c : Nat → Int) :
    (∑ k ∈ sk, ∑ y ∈ sb, if P y then c k else 0)
      = ∑ y ∈ sb, if P y then ∑ k ∈ sk, c k else 0 := by
  rw [Finset.sum_comm]
  exact Finset.sum_congr rfl fun y _ => sum_ite_push sk c

lemma sum_reorder_pull {P : Nat → Prop} [DecidablePred P] (sa sk sb : Finset Nat)
    (h : Nat → Nat → Int) :
    (∑ x ∈ sa, ∑ k ∈ sk, ∑ y ∈ sb, if P y then h x k else 0)
      = ∑ y ∈ sb, if P y then ∑ x ∈ sa, ∑ k ∈ sk, h x k else 0 := by
  calc (∑ x ∈ sa, ∑ k ∈ sk, ∑ y ∈ sb, if P y then h x k else 0)
      = ∑ x ∈ sa, ∑ y ∈ sb, if P y then ∑ k ∈ sk, h x k else 0 :=
        Finset.sum_congr rfl fun x _ => sum_swap_pull sk sb (h x)
    _ = ∑ y ∈ sb, ∑ x ∈ sa, if P y then ∑ k ∈ sk, h x k else 0 := Finset.sum_comm
    _ = ∑ y ∈ sb, if P y then ∑ x ∈ sa, ∑ k ∈ sk, h x k else 0 :=
        Finset.sum_congr rfl fun y _ => sum_ite_push sa (fun x => ∑ k ∈ sk, h x k)

/-- C10: the knob values chosen for the matmul template change only the
schedule, never the computed function: for every two-output split entity
of the template's space for the y and x axes, the tiled loop nest leaves
in every output cell (i, j) exactly the reference product value
sum of A[i, k] * B[k, j] — over exact arithmetic the built function
equals the reference, hence matches it within any tolerance. -/
theorem matmul_schedule_preserves_function
    (A B : Nat → Nat → Int) (N L M a1 b1 a2 b2 i j : Nat)
    (hy : [a1, b1] ∈ splitDomain N 2) (hx : [a2, b2] ∈ splitDomain M 2)
    (hi : i < N) (hj : j < M) :
    matmulTiled A B L a1 b1 a2 b2 i j = matmulRef A B L i j := by
  obtain ⟨-, hposy, hprody⟩ := (mem_splitDomain 2 N [a1, b1]).1 hy
  obtain ⟨-, hposx, hprodx⟩ := (mem_splitDomain 2 M [a2, b2]).1 hx
  have hb1 : 0 < b1 := hposy b1 (by simp)
  have hb2 : 0 < b2 := hposx b2 (by simp)
  have hi2 : i < a1 * b1 := by
    have : [a1, b1].prod = a1 * b1 := by simp
    omega
  have hj2 : j < a2 * b2 := by
    have : [a2, b2].prod = a2 * b2 := by simp
    omega
  have step1 : matmulTiled A B L a1 b1 a2 b2 i j
      = ∑ yo ∈ Finset.range a1, ∑ xo ∈ Finset.range a2, ∑ k ∈ Finset.range L,
          ∑ yi ∈ Finset.range b1,
            if yo * b1 + yi = i
            then ∑ xi ∈ Finset.range b2,
              if xo * b2 + xi = j then A i k * B k j else 0
            else 0 := by
    rw [matmulTiled]
    refine Finset.sum_congr rfl fun yo _ => Finset.sum_congr rfl fun xo _ =>
      Finset.sum_congr rfl fun k _ => Finset.sum_congr rfl fun yi _ => ?_
    by_cases hPy : yo * b1 + yi = i
    · rw [if_pos hPy]
      refine Finset.sum_congr rfl fun xi _ => ?_
      by_cases hPx : xo * b2 + xi = j
      · rw [if_pos ⟨hPy, hPx⟩, if_pos hPx, hPy, hPx]
      · rw [if_neg (fun hc => hPx hc.2), if_neg hPx]
    · rw [if_neg hPy]
      exact Finset.sum_eq_zero fun xi _ => if_neg (fun hc => hPy hc.1)
  have hT : (∑ xo ∈ Finset.range a2, ∑ k ∈ Finset.range L,
        ∑ xi ∈ Finset.range b2, if xo * b2 + xi = j then A i k * B k j else 0)
      = matmulRef A B L i j :=
    calc (∑ xo ∈ Finset.range a2, ∑ k ∈ Finset.range L,
            ∑ xi ∈ Finset.range b2, if xo * b2 + xi = j then A i k * B k j else 0)
        = ∑ xo ∈ Finset.range a2, ∑ xi ∈ Finset.range b2,
            if xo * b2 + xi = j then ∑ k ∈ Finset.range L, A i k * B k j else 0 :=
          Finset.sum_congr rfl fun xo _ =>
            sum_swap_pull (Finset.range L) (Finset.range b2) (fun k => A i k * B k j)
      _ = ∑ k ∈ Finset.range L, A i k * B k j :=
          sum_tile_indicator a2 b2 j hb2 hj2 _
      _ = matmulRef A B L i j := rfl
  calc matmulTiled A B L a1 b1 a2 b2 i j
      = ∑ yo ∈ Finset.range a1, ∑ yi ∈ Finset.range b1,
          if yo * b1 + yi = i
          then ∑ xo ∈ Finset.range a2, ∑ k ∈ Finset.range L,
            ∑ xi ∈ Finset.range b2, if xo * b2 + xi = j then A i k * B k j else 0
          else 0 := by
        rw [step1]
        exact Finset.sum_congr rfl fun yo _ =>
          sum_reorder_pull (Finset.range a2) (Finset.range L) (Finset.range b1)
            (fun xo k => ∑ xi ∈ Finset.range b2,
              if xo * b2 + xi = j then A i k * B k j else 0)
    _ = matmulRef A B L i j := by rw [sum_tile_indicator a1 b1 i hb1 hi2, hT]

/-- Witness for C10: the concrete split (2, 2) of both axes of a 4x4x2
problem with concrete integer matrices: the tiled result at cell (1, 3)
equals the reference product there. -/
theorem matmul_schedule_preserves_function_witness :
    matmulTiled (fun p q => (p : Int) + 2 * q) (fun p q => (p : Int) - q) 2 2 2 2 2 1 3
      = matmulRef (fun p q => (p : Int) + 2 * q) (fun p q => (p : Int) - q) 2 1 3 :=
  matmul_schedule_preserves_function (fun p q => (p : Int) + 2 * q)
    (fun p q => (p : Int) - q) 4 2 4 2 2 2 2 1 3
    (by decide) (by decide) (by decide) (by decide)

end Riptide
namespace Riptide

/-- Witness for C3: the concrete factorization (4, 8) of extent 32 into
two positive parts is in the split domain, by the membership
characterization. -/
theorem define_split_domain_exact_witness :
    [4, 8] ∈ splitDomain 32 2 :=
  (define_split_domain_exact.2.1 32 2 [4, 8]).2 (by decide)

end Riptide
